import Mathlib

/-!
Verification of the stackmap-insertion pass, the CPU-flags verifier and the
textual IR parser of this repository, against a shallow embedding of the code.

Sections:
  1. Stackmap insertion  (cranelift-codegen/src/regalloc/stackmaps.rs)
  2. CPU-flags verifier  (lib/codegen/src/verifier/flags.rs)
  3. Parser: type inference, ISA specs, value aliases, dense entity vectors
     (lib/reader/src/parser.rs)

External collaborators (LiveValueTracker, TargetIsa, lexer, DataFlowGraph
helpers) are embedded as oracle parameters or as data carried on the
instruction records, exactly where the code consults them through an
interface.  Instruction and value handles are natural numbers.
-/

namespace Spec2Proof

/-! ## Section 1: stackmap insertion

Embedding of emit_stackmaps and its helpers.  An original instruction is
embedded with the fields the pass inspects: whether its opcode is a call
(opcode.is_call()) and its branch destination (dfg[inst].branch_destination()).
The LiveValueTracker is an external collaborator; it is embedded as an oracle
giving, for each EBB and each original instruction position, the list of
tracker-live values at that point (position 0 is the EBB top after
drop_dead_params, which is also the point just before the first original
instruction).  A stackmap instruction inserted by the pass defines no value
and has no liveness record, so processing it leaves the tracker state
unchanged; the oracle therefore does not depend on inserted stackmaps.
The predicate isRef embeds value_type(v).is_ref(). -/

structure OInst where
  isCall : Bool
  branchDest : Option Nat
deriving DecidableEq

/-- An instruction of the function after the pass: either an original
instruction (tagged with its position in its EBB before the pass) or an
inserted stackmap pseudo-instruction listing the live reference values. -/
inductive SInst where
  | orig (idx : Nat) (inst : OInst)
  | smap (args : List Nat)
deriving DecidableEq

/-- Oracle view of the external LiveValueTracker and of value types. -/
structure Tracker where
  live : Nat → Nat → List Nat
  isRef : Nat → Bool

/-- Embeds get_live_ref_values: the tracker-live values at point i of ebb e,
filtered to those whose type satisfies is_ref. -/
def get_live_ref_values (tr : Tracker) (e i : Nat) : List Nat :=
  (tr.live e i).filter tr.isRef

/-- The instruction walk of emit_stackmaps restricted to its output: each
original instruction is emitted; an instruction that is a call (and not a
branch) with a non-empty live reference set gets a stackmap inserted
immediately before it, listing exactly those values. -/
def walkOut (tr : Tracker) (e : Nat) : Nat → List OInst → List SInst
  | _, [] => []
  | i, inst :: rest =>
    let tail := walkOut tr e (i + 1) rest
    match inst.branchDest with
    | some _ => .orig i inst :: tail
    | none =>
      if inst.isCall && !(get_live_ref_values tr e i).isEmpty then
        .smap (get_live_ref_values tr e i) :: .orig i inst :: tail
      else
        .orig i inst :: tail

/-- The instruction walk of emit_stackmaps restricted to its bookkeeping:
dest_ebbs accumulates every branch destination, and self_loop is set when a
branch targets the current EBB at a moment when the EBB is not yet in
dest_ebbs (the check precedes the insertion, as in the code). -/
def walkSets (e : Nat) : List OInst → List Nat → Bool → List Nat × Bool
  | [], dests, selfLoop => (dests, selfLoop)
  | inst :: rest, dests, selfLoop =>
    match inst.branchDest with
    | some d =>
        walkSets e rest (dests.insert d)
          (selfLoop || (d == e && !(dests.contains e)))
    | none => walkSets e rest dests selfLoop

/-- Embeds try_insert_savepoint_at_ebb_top: if the EBB is a known branch
destination and the reference values live at its top are non-empty, insert a
stackmap before the current first instruction. -/
def try_insert_savepoint_at_ebb_top (tr : Tracker) (e : Nat) (dests : List Nat)
    (cur : List SInst) : List SInst :=
  if dests.contains e && !(get_live_ref_values tr e 0).isEmpty then
    .smap (get_live_ref_values tr e 0) :: cur
  else
    cur

/-- One iteration of the EBB loop of emit_stackmaps: the top savepoint is
attempted with the incoming dest_ebbs, the instructions are walked, and when
a self loop was flagged the top savepoint is attempted again with the updated
dest_ebbs. -/
def processEbb (tr : Tracker) (e : Nat) (insts : List OInst) (dests : List Nat) :
    List SInst × List Nat :=
  let walked := walkOut tr e 0 insts
  let sets := walkSets e insts dests false
  let afterTop := try_insert_savepoint_at_ebb_top tr e dests walked
  let out := if sets.2 then try_insert_savepoint_at_ebb_top tr e sets.1 afterTop
             else afterTop
  (out, sets.1)

/-- The EBB loop of emit_stackmaps: EBBs are visited in reverse layout order
(the recursion processes the tail, i.e. the later EBBs, first), threading
dest_ebbs, while the layout order of the result is unchanged. -/
def emitGo (tr : Tracker) : List (Nat × List OInst) → List (Nat × List SInst) × List Nat
  | [] => ([], [])
  | (e, insts) :: rest =>
    let res := emitGo tr rest
    let blk := processEbb tr e insts res.2
    ((e, blk.1) :: res.1, blk.2)

/-- Embeds emit_stackmaps: a function is its layout, a list of EBBs each with
its instruction list. -/
def emit_stackmaps (tr : Tracker) (f : List (Nat × List OInst)) :
    List (Nat × List SInst) :=
  (emitGo tr f).1

/-- Projection recovering an original instruction from an output instruction. -/
def origOf : SInst → Option (Nat × OInst)
  | .orig i inst => some (i, inst)
  | .smap _ => none

theorem walkOut_filterMap (tr : Tracker) (e : Nat) :
    ∀ (insts : List OInst) (i : Nat),
      (walkOut tr e i insts).filterMap origOf = insts.enumFrom i := by
  intro insts
  induction insts with
  | nil => intro i; rfl
  | cons inst rest ih =>
    intro i
    simp only [walkOut, List.enumFrom]
    cases h : inst.branchDest with
    | some d => simp [List.filterMap, origOf, ih (i + 1)]
    | none =>
      by_cases hc : inst.isCall && !(get_live_ref_values tr e i).isEmpty
      · simp [hc, List.filterMap, origOf, ih (i + 1)]
      · simp [hc, List.filterMap, origOf, ih (i + 1)]

theorem filterMap_try_insert (tr : Tracker) (e : Nat) (dests : List Nat)
    (cur : List SInst) :
    (try_insert_savepoint_at_ebb_top tr e dests cur).filterMap origOf =
      cur.filterMap origOf := by
  unfold try_insert_savepoint_at_ebb_top
  split <;> simp [origOf]

theorem filterMap_processEbb (tr : Tracker) (e : Nat) (insts : List OInst)
    (dests : List Nat) :
    (processEbb tr e insts dests).1.filterMap origOf = insts.enum := by
  unfold processEbb
  simp only []
  split <;> simp [filterMap_try_insert, walkOut_filterMap, List.enum]

/-- C10: emit_stackmaps only inserts stackmap instructions: the EBB layout
order is unchanged, and erasing the inserted stackmaps from each EBB of the
output recovers exactly the original instructions of that EBB, in their
original relative order (each original instruction tagged with its original
position). -/
theorem emit_stackmaps_frame (tr : Tracker) (f : List (Nat × List OInst)) :
    (emit_stackmaps tr f).map Prod.fst = f.map Prod.fst ∧
      List.Forall₂
        (fun (ob : Nat × List SInst) (b : Nat × List OInst) =>
          ob.2.filterMap origOf = b.2.enum)
        (emit_stackmaps tr f) f := by
  induction f with
  | nil => exact ⟨rfl, List.Forall₂.nil⟩
  | cons b rest ih =>
    obtain ⟨e, insts⟩ := b
    refine ⟨?_, ?_⟩
    · simpa [emit_stackmaps, emitGo] using ih.1
    · exact List.Forall₂.cons (filterMap_processEbb tr e insts (emitGo tr rest).2)
        ih.2

/-- The call-adjacency property of an output instruction stream: every
original call instruction (with no branch destination) whose live reference
set is non-empty is immediately preceded by a stackmap listing exactly that
set. -/
def CallAdjacent (tr : Tracker) (e : Nat) (l : List SInst) : Prop :=
  ∀ j i inst, l[j]? = some (.orig i inst) → inst.isCall = true →
    inst.branchDest = none → get_live_ref_values tr e i ≠ [] →
    1 ≤ j ∧ l[j - 1]? = some (.smap (get_live_ref_values tr e i))

theorem callAdjacent_walkOut (tr : Tracker) (e : Nat) :
    ∀ (insts : List OInst) (i0 : Nat), CallAdjacent tr e (walkOut tr e i0 insts) := by
  intro insts
  induction insts with
  | nil => intro i0 j i inst h; simp [walkOut] at h
  | cons inst0 rest ih =>
    intro i0 j i inst h hc hb hl
    cases hbd : inst0.branchDest with
    | some d =>
      simp only [walkOut, hbd] at h ⊢
      match j, h with
      | 0, h =>
        simp only [List.getElem?_cons_zero, Option.some.injEq, SInst.orig.injEq] at h
        rw [← h.2] at hb
        rw [hbd] at hb
        exact absurd hb (by simp)
      | j + 1, h =>
        simp only [List.getElem?_cons_succ] at h
        obtain ⟨h1, h2⟩ := ih (i0 + 1) j i inst h hc hb hl
        obtain ⟨m, rfl⟩ : ∃ m, j = m + 1 := ⟨j - 1, by omega⟩
        exact ⟨by omega, by simpa using h2⟩
    | none =>
      by_cases hcall : (inst0.isCall && !(get_live_ref_values tr e i0).isEmpty) = true
      · simp only [walkOut, hbd, hcall, if_pos] at h ⊢
        match j, h with
        | 0, h => simp at h
        | 1, h =>
          simp only [List.getElem?_cons_succ, List.getElem?_cons_zero,
            Option.some.injEq, SInst.orig.injEq] at h
          exact ⟨le_refl 1, by simp [h.1]⟩
        | j + 2, h =>
          simp only [List.getElem?_cons_succ] at h
          obtain ⟨h1, h2⟩ := ih (i0 + 1) j i inst h hc hb hl
          obtain ⟨m, rfl⟩ : ∃ m, j = m + 1 := ⟨j - 1, by omega⟩
          exact ⟨by omega, by simpa using h2⟩
      · simp only [walkOut, hbd, hcall, if_neg, Bool.false_eq_true,
          not_false_iff] at h ⊢
        match j, h with
        | 0, h =>
          simp only [List.getElem?_cons_zero, Option.some.injEq, SInst.orig.injEq] at h
          obtain ⟨rfl, rfl⟩ := h
          rw [hc] at hcall
          simp only [Bool.true_and, Bool.not_eq_true', List.isEmpty_eq_false] at hcall
          exact absurd (by simpa [List.isEmpty_iff] using hcall) hl
        | j + 1, h =>
          simp only [List.getElem?_cons_succ] at h
          obtain ⟨h1, h2⟩ := ih (i0 + 1) j i inst h hc hb hl
          obtain ⟨m, rfl⟩ : ∃ m, j = m + 1 := ⟨j - 1, by omega⟩
          exact ⟨by omega, by simpa using h2⟩

theorem callAdjacent_cons_smap (tr : Tracker) (e : Nat) (t : List Nat)
    (l : List SInst) (h : CallAdjacent tr e l) :
    CallAdjacent tr e (.smap t :: l) := by
  intro j i inst hj hc hb hl
  match j, hj with
  | 0, hj => simp at hj
  | j + 1, hj =>
    simp only [List.getElem?_cons_succ] at hj
    obtain ⟨h1, h2⟩ := h j i inst hj hc hb hl
    obtain ⟨m, rfl⟩ : ∃ m, j = m + 1 := ⟨j - 1, by omega⟩
    exact ⟨by omega, by simpa using h2⟩

theorem callAdjacent_try_insert (tr : Tracker) (e : Nat) (dests : List Nat)
    (cur : List SInst) (h : CallAdjacent tr e cur) :
    CallAdjacent tr e (try_insert_savepoint_at_ebb_top tr e dests cur) := by
  unfold try_insert_savepoint_at_ebb_top
  split
  · exact callAdjacent_cons_smap tr e _ cur h
  · exact h

theorem callAdjacent_processEbb (tr : Tracker) (e : Nat) (insts : List OInst)
    (dests : List Nat) : CallAdjacent tr e (processEbb tr e insts dests).1 := by
  unfold processEbb
  simp only []
  split
  · exact callAdjacent_try_insert tr e _ _
      (callAdjacent_try_insert tr e _ _ (callAdjacent_walkOut tr e insts 0))
  · exact callAdjacent_try_insert tr e _ _ (callAdjacent_walkOut tr e insts 0)

theorem mem_emit_stackmaps (tr : Tracker) :
    ∀ (f : List (Nat × List OInst)) (e : Nat) (out : List SInst),
      (e, out) ∈ emit_stackmaps tr f →
      ∃ insts dests, out = (processEbb tr e insts dests).1 := by
  intro f
  induction f with
  | nil => intro e out hp; simp [emit_stackmaps, emitGo] at hp
  | cons b rest ih =>
    intro e out hp
    obtain ⟨e2, insts⟩ := b
    simp only [emit_stackmaps, emitGo, List.mem_cons, Prod.mk.injEq] at hp
    rcases hp with ⟨he, hout⟩ | hp
    · subst he
      exact ⟨insts, (emitGo tr rest).2, hout⟩
    · exact ih e out hp

/-- C1: after emit_stackmaps, in every EBB of the output, every original call
instruction before which at least one reference-typed value is live is
immediately preceded by a stackmap instruction whose operand list is exactly
the list of live reference-typed values at that point. -/
theorem emit_stackmaps_call_coverage (tr : Tracker) (f : List (Nat × List OInst))
    (e : Nat) (out : List SInst) (hmem : (e, out) ∈ emit_stackmaps tr f)
    (j i : Nat) (inst : OInst) (hj : out[j]? = some (.orig i inst))
    (hcall : inst.isCall = true) (hnb : inst.branchDest = none)
    (hlive : get_live_ref_values tr e i ≠ []) :
    1 ≤ j ∧ out[j - 1]? = some (.smap (get_live_ref_values tr e i)) := by
  obtain ⟨insts, dests, hout⟩ := mem_emit_stackmaps tr f e out hmem
  rw [hout] at hj ⊢
  exact callAdjacent_processEbb tr e insts dests j i inst hj hcall hnb hlive

theorem walkSets_dests_mem (e : Nat) :
    ∀ (insts : List OInst) (dests : List Nat) (sl : Bool) (d : Nat),
      d ∈ (walkSets e insts dests sl).1 ↔
        d ∈ dests ∨ ∃ inst ∈ insts, inst.branchDest = some d := by
  intro insts
  induction insts with
  | nil => intro dests sl d; simp [walkSets]
  | cons inst0 rest ih =>
    intro dests sl d
    cases hbd : inst0.branchDest with
    | some d0 =>
      simp only [walkSets, hbd]
      rw [ih]
      simp only [List.mem_insert_iff, List.mem_cons]
      constructor
      · rintro ((rfl | hd) | ⟨inst, hi, hbi⟩)
        · exact Or.inr ⟨inst0, Or.inl rfl, hbd⟩
        · exact Or.inl hd
        · exact Or.inr ⟨inst, Or.inr hi, hbi⟩
      · rintro (hd | ⟨inst, (rfl | hi), hbi⟩)
        · exact Or.inl (Or.inr hd)
        · rw [hbd] at hbi
          exact Or.inl (Or.inl (Option.some.inj hbi).symm)
        · exact Or.inr ⟨inst, hi, hbi⟩
    | none =>
      simp only [walkSets, hbd]
      rw [ih]
      simp only [List.mem_cons]
      constructor
      · rintro (hd | ⟨inst, hi, hbi⟩)
        · exact Or.inl hd
        · exact Or.inr ⟨inst, Or.inr hi, hbi⟩
      · rintro (hd | ⟨inst, (rfl | hi), hbi⟩)
        · exact Or.inl hd
        · rw [hbd] at hbi; cases hbi
        · exact Or.inr ⟨inst, hi, hbi⟩

theorem walkSets_self_of_mem (e : Nat) :
    ∀ (insts : List OInst) (dests : List Nat) (sl : Bool), e ∈ dests →
      (walkSets e insts dests sl).2 = sl := by
  intro insts
  induction insts with
  | nil => intro dests sl _; rfl
  | cons inst0 rest ih =>
    intro dests sl he
    cases hbd : inst0.branchDest with
    | some d0 =>
      simp only [walkSets, hbd]
      have hc : dests.contains e = true := List.elem_eq_true_of_mem he
      have hflag : (d0 == e && !dests.contains e) = false := by
        rw [hc]; simp
      rw [hflag, Bool.or_false]
      exact ih _ _ (List.mem_insert_iff.mpr (Or.inr he))
    | none =>
      simp only [walkSets, hbd]
      exact ih _ _ he

theorem walkSets_self_absorb (e : Nat) :
    ∀ (insts : List OInst) (dests : List Nat),
      (walkSets e insts dests true).2 = true := by
  intro insts
  induction insts with
  | nil => intro dests; rfl
  | cons inst0 rest ih =>
    intro dests
    cases hbd : inst0.branchDest with
    | some d0 => simp only [walkSets, hbd, Bool.true_or]; exact ih _
    | none => simp only [walkSets, hbd]; exact ih _

theorem walkSets_self_of_branch (e : Nat) :
    ∀ (insts : List OInst) (dests : List Nat), e ∉ dests →
      (∃ inst ∈ insts, inst.branchDest = some e) →
      (walkSets e insts dests false).2 = true := by
  intro insts
  induction insts with
  | nil => intro dests _ h; simp at h
  | cons inst0 rest ih =>
    intro dests he h
    cases hbd : inst0.branchDest with
    | some d0 =>
      simp only [walkSets, hbd, Bool.false_or]
      by_cases hd0 : d0 = e
      · rw [hd0]
        have hc : dests.contains e = false := by
          simpa using he
        simp only [beq_self_eq_true, hc, Bool.not_false, Bool.and_self]
        exact walkSets_self_absorb e rest _
      · obtain ⟨inst, hi, hbi⟩ := h
        rcases List.mem_cons.mp hi with heq | hi2
        · subst heq
          rw [hbd] at hbi
          exact absurd (Option.some.inj hbi) hd0
        · have he2 : e ∉ dests.insert d0 := by
            simp only [List.mem_insert_iff]
            rintro (rfl | hmem)
            · exact hd0 rfl
            · exact he hmem
          have hrec := ih (dests.insert d0) he2 ⟨inst, hi2, hbi⟩
          have hflag : (d0 == e) = false := by
            simp [hd0]
          rw [hflag, Bool.false_and]
          exact hrec
    | none =>
      simp only [walkSets, hbd]
      obtain ⟨inst, hi, hbi⟩ := h
      rcases List.mem_cons.mp hi with heq | hi2
      · subst heq
        rw [hbd] at hbi; cases hbi
      · exact ih dests he ⟨inst, hi2, hbi⟩

theorem emitGo_dests_mem (tr : Tracker) :
    ∀ (f : List (Nat × List OInst)) (d : Nat),
      d ∈ (emitGo tr f).2 ↔ ∃ b ∈ f, ∃ inst ∈ b.2, inst.branchDest = some d := by
  intro f
  induction f with
  | nil => intro d; simp [emitGo]
  | cons b rest ih =>
    intro d
    obtain ⟨e, insts⟩ := b
    simp only [emitGo, processEbb]
    rw [walkSets_dests_mem]
    rw [ih]
    simp only [List.mem_cons]
    constructor
    · rintro (h | h)
      · obtain ⟨b2, hb2, hrest⟩ := h
        exact ⟨b2, Or.inr hb2, hrest⟩
      · exact ⟨(e, insts), Or.inl rfl, h⟩
    · rintro ⟨b2, (rfl | hb2), hrest⟩
      · exact Or.inr hrest
      · exact Or.inl ⟨b2, hb2, hrest⟩

theorem emit_stackmaps_get_block (tr : Tracker) :
    ∀ (l1 l2 : List (Nat × List OInst)) (e : Nat) (insts : List OInst),
      (emit_stackmaps tr (l1 ++ (e, insts) :: l2))[l1.length]? =
        some (e, (processEbb tr e insts (emitGo tr l2).2).1) := by
  intro l1
  induction l1 with
  | nil => intro l2 e insts; simp [emit_stackmaps, emitGo]
  | cons b rest ih =>
    intro l2 e insts
    obtain ⟨e2, insts2⟩ := b
    simp only [List.cons_append, emit_stackmaps, emitGo, List.length_cons,
      List.getElem?_cons_succ]
    exact ih l2 e insts

theorem processEbb_top_insert (tr : Tracker) (e : Nat) (insts : List OInst)
    (dests : List Nat)
    (hcond : e ∈ dests ∨ ∃ inst ∈ insts, inst.branchDest = some e)
    (htop : get_live_ref_values tr e 0 ≠ []) :
    (processEbb tr e insts dests).1 =
      .smap (get_live_ref_values tr e 0) :: walkOut tr e 0 insts := by
  have htopb : (get_live_ref_values tr e 0).isEmpty = false := by
    simpa [List.isEmpty_iff] using htop
  by_cases he : e ∈ dests
  · have hc : dests.contains e = true := List.elem_eq_true_of_mem he
    have hsl : (walkSets e insts dests false).2 = false :=
      walkSets_self_of_mem e insts dests false he
    unfold processEbb try_insert_savepoint_at_ebb_top
    simp [hsl, hc, htopb, he]
  · rcases hcond with hcond | hcond
    · exact absurd hcond he
    · have hsl : (walkSets e insts dests false).2 = true :=
        walkSets_self_of_branch e insts dests he hcond
      have hmem : e ∈ (walkSets e insts dests false).1 := by
        rw [walkSets_dests_mem]
        exact Or.inr hcond
      have hc1 : (walkSets e insts dests false).1.contains e = true :=
        List.elem_eq_true_of_mem hmem
      have hc0 : dests.contains e = false := by simpa using he
      unfold processEbb try_insert_savepoint_at_ebb_top
      simp [hsl, hc0, hc1, htopb, he, hmem]

theorem walkOut_smap_before_call (tr : Tracker) (e : Nat) :
    ∀ (insts : List OInst) (i0 j : Nat) (args : List Nat),
      (walkOut tr e i0 insts)[j]? = some (.smap args) →
      ∃ i c, (walkOut tr e i0 insts)[j + 1]? = some (.orig i c) ∧
        c.isCall = true := by
  intro insts
  induction insts with
  | nil => intro i0 j args h; simp [walkOut] at h
  | cons inst0 rest ih =>
    intro i0 j args h
    cases hbd : inst0.branchDest with
    | some d =>
      simp only [walkOut, hbd] at h ⊢
      match j, h with
      | 0, h => simp at h
      | j + 1, h =>
        simp only [List.getElem?_cons_succ] at h
        simpa using ih (i0 + 1) j args h
    | none =>
      by_cases hcall : (inst0.isCall && !(get_live_ref_values tr e i0).isEmpty) = true
      · simp only [walkOut, hbd, hcall, if_pos] at h ⊢
        match j, h with
        | 0, _ =>
          exact ⟨i0, inst0, by simp, by
            have := hcall
            simp only [Bool.and_eq_true] at this
            exact this.1⟩
        | 1, h => simp at h
        | j + 2, h =>
          simp only [List.getElem?_cons_succ] at h
          simpa using ih (i0 + 1) j args h
      · simp only [walkOut, hbd, hcall, if_neg, Bool.false_eq_true,
          not_false_iff] at h ⊢
        match j, h with
        | 0, h => simp at h
        | j + 1, h =>
          simp only [List.getElem?_cons_succ] at h
          simpa using ih (i0 + 1) j args h

/-- C3: after emit_stackmaps, every EBB that is the destination of a branch
located in a later-layout EBB, or of a branch within itself, and whose live
reference set at the top is non-empty, starts with a stackmap whose operands
are exactly those values; every other stackmap of that EBB is a call
stackmap (it immediately precedes a call instruction), so exactly one
stackmap sits at the EBB top. -/
theorem emit_stackmaps_loop_head_coverage (tr : Tracker)
    (f l1 l2 : List (Nat × List OInst)) (e : Nat) (insts : List OInst)
    (hf : f = l1 ++ (e, insts) :: l2)
    (htarget : (∃ b ∈ l2, ∃ inst ∈ b.2, inst.branchDest = some e) ∨
      ∃ inst ∈ insts, inst.branchDest = some e)
    (htop : get_live_ref_values tr e 0 ≠ []) :
    ∃ out, (emit_stackmaps tr f)[l1.length]? = some (e, out) ∧
      out[0]? = some (.smap (get_live_ref_values tr e 0)) ∧
      ∀ j args, out[j + 1]? = some (.smap args) →
        ∃ i c, out[j + 2]? = some (.orig i c) ∧ c.isCall = true := by
  subst hf
  have hcond : e ∈ (emitGo tr l2).2 ∨ ∃ inst ∈ insts, inst.branchDest = some e := by
    rcases htarget with h | h
    · exact Or.inl ((emitGo_dests_mem tr l2 e).mpr h)
    · exact Or.inr h
  have hout := processEbb_top_insert tr e insts (emitGo tr l2).2 hcond htop
  refine ⟨(processEbb tr e insts (emitGo tr l2).2).1,
    emit_stackmaps_get_block tr l1 l2 e insts, ?_, ?_⟩
  · rw [hout]; simp
  · intro j args hj
    rw [hout] at hj ⊢
    simp only [List.getElem?_cons_succ] at hj ⊢
    exact walkOut_smap_before_call tr e insts 0 j args hj

/-- Concrete tracker for witnesses: value 7 is live everywhere and is a
reference. -/
def trW : Tracker := ⟨fun _ _ => [7], fun _ => true⟩

theorem emit_stackmaps_call_coverage_witness :
    1 ≤ 1 ∧
      ([SInst.smap [7], SInst.orig 0 ⟨true, none⟩] : List SInst)[0]? =
        some (.smap (get_live_ref_values trW 0 0)) :=
  emit_stackmaps_call_coverage trW [(0, [⟨true, none⟩])] 0
    [.smap [7], .orig 0 ⟨true, none⟩] (by decide) 1 0 ⟨true, none⟩
    (by decide) rfl rfl (by decide)

theorem emit_stackmaps_loop_head_coverage_witness :
    ∃ out, (emit_stackmaps trW [(0, [OInst.mk false (some 0)])])[0]? =
        some (0, out) ∧
      out[0]? = some (.smap (get_live_ref_values trW 0 0)) ∧
      ∀ j args, out[j + 1]? = some (.smap args) →
        ∃ i c, out[j + 2]? = some (.orig i c) ∧ c.isCall = true :=
  emit_stackmaps_loop_head_coverage trW [(0, [OInst.mk false (some 0)])] [] []
    0 [OInst.mk false (some 0)] rfl
    (Or.inr ⟨OInst.mk false (some 0), by decide, rfl⟩) (by decide)

/-! ## Section 2: CPU-flags verifier

Embedding of verify_flags (lib/codegen/src/verifier/flags.rs).  An
instruction carries the data the verifier reads through the DataFlowGraph
and encoding interfaces: its result values, its argument values, whether its
encoding's operand constraints report clobbers_flags (the map_or false
composition over the optional encoding info), and its branch information
(for a jump table, the table's destination list is inlined).  The predicate
isFlags embeds value_type(v).is_flags().  Errors are embedded as an
inductive whose constructors carry the values in the order the code formats
them into the message.  The worklist of check is abstracted into a step
relation: check_step performs the body of one loop iteration on a popped
EBB, and Reach is the set of livein tables an execution can be in; this is a
superset of the pop orders the SparseSet worklist can produce. -/

inductive BranchInfo where
  | notABranch
  | singleDest (dest : Nat)
  | table (dests : List Nat)
deriving DecidableEq

structure FInst where
  results : List Nat
  args : List Nat
  clobbersFlags : Bool
  branch : BranchInfo
deriving DecidableEq

inductive FlagsError where
  | resultClobbers (res live : Nat)
  | encodingClobbers (live : Nat)
  | conflicting (a b : Nat)
  | conflictingLivein (old next : Nat)
deriving DecidableEq

/-- Embeds merge: merging a live flags value with an already live one fails
on a conflict, naming first the currently live value and then the merged
one. -/
def merge (a : Option Nat) (b : Nat) : Except FlagsError (Option Nat) :=
  match a with
  | some va => if b ≠ va then .error (.conflicting va b) else .ok (some va)
  | none => .ok (some b)

/-- The result scan of visit_ebb: with live flags value live coming from
below, a result equal to live clears the running value, and any other
flags-typed result is an error; comparisons are against the originally
bound live value, as in the code. -/
def scan_results (isFlags : Nat → Bool) (live : Nat) :
    List Nat → Option Nat → Except FlagsError (Option Nat)
  | [], lv => .ok lv
  | r :: rs, lv =>
    if r = live then scan_results isFlags live rs none
    else if isFlags r then .error (.resultClobbers r live)
    else scan_results isFlags live rs lv

/-- Merging the recorded live-in value of one branch destination, when the
destination has one. -/
def merge_livein (livein : Nat → Option Nat) (s : Option Nat) (d : Nat) :
    Except FlagsError (Option Nat) :=
  match livein d with
  | some v => merge s v
  | none => pure s

/-- Merging one instruction argument when its type is flags. -/
def merge_arg (isFlags : Nat → Bool) (s : Option Nat) (a : Nat) :
    Except FlagsError (Option Nat) :=
  if isFlags a then merge s a else pure s

/-- The interference check of visit_ebb: when a flags value is live below
this instruction, scan its results and then apply the clobbers_flags check
of its encoding, which only fires while the value is still live after the
scan. -/
def check_interference (isFlags : Nat → Bool) (inst : FInst)
    (lv : Option Nat) : Except FlagsError (Option Nat) :=
  match lv with
  | some live => do
    let lvs ← scan_results isFlags live inst.results (some live)
    if inst.clobbersFlags && lvs.isSome then
      throw (.encodingClobbers live)
    else
      pure lvs
  | none => pure none

/-- The branch handling of visit_ebb: merge the recorded live-in value of
the single destination, or of every jump table entry. -/
def merge_branch (livein : Nat → Option Nat) (inst : FInst)
    (lv : Option Nat) : Except FlagsError (Option Nat) :=
  match inst.branch with
  | .notABranch => pure lv
  | .singleDest d => merge_livein livein lv d
  | .table ds => ds.foldlM (merge_livein livein) lv

/-- One backward step of visit_ebb on a single instruction: the interference
check on results and the clobbers_flags check (both only when a value is
live below), then the merge of flags arguments, then the merge of the
live-in values of branch destinations. -/
def visit_inst (isFlags : Nat → Bool) (livein : Nat → Option Nat)
    (inst : FInst) (lv : Option Nat) : Except FlagsError (Option Nat) := do
  let lv1 ← check_interference isFlags inst lv
  let lv2 ← inst.args.foldlM (merge_arg isFlags) lv1
  merge_branch livein inst lv2

/-- Embeds visit_ebb: the instructions of the EBB are visited backwards (the
recursion folds the tail, i.e. the later instructions, first), starting with
no live value, and the result is the live-in flags value the EBB requires. -/
def visit_ebb (isFlags : Nat → Bool) (livein : Nat → Option Nat) :
    List FInst → Except FlagsError (Option Nat)
  | [] => .ok none
  | inst :: rest => do
    let lv ← visit_ebb isFlags livein rest
    visit_inst isFlags livein inst lv

/-- The body of one iteration of the worklist loop of FlagsVerifier::check on
a popped EBB e: run visit_ebb; on a live-in report, record it when the table
had none, fail on a conflicting recorded value, and leave the table
unchanged otherwise.  The code asserts that a visit reporting no live-in
never finds a recorded one; that assertion is proved below as part of the
monotonicity theorem, so the branch leaves the table unchanged here. -/
def check_step (isFlags : Nat → Bool) (insts : Nat → List FInst)
    (T : Nat → Option Nat) (e : Nat) : Except FlagsError (Nat → Option Nat) :=
  match visit_ebb isFlags T (insts e) with
  | .error err => .error err
  | .ok (some v) =>
    match T e with
    | none => .ok (fun b => if b = e then some v else T b)
    | some old => if old ≠ v then .error (.conflictingLivein old v) else .ok T
  | .ok none => .ok T

/-- The livein tables reachable during a run of FlagsVerifier::check,
starting from the empty table, for any order of worklist pops. -/
inductive Reach (isFlags : Nat → Bool) (insts : Nat → List FInst) :
    (Nat → Option Nat) → Prop
  | init : Reach isFlags insts (fun _ => none)
  | step {T e T2} : Reach isFlags insts T →
      check_step isFlags insts T e = .ok T2 → Reach isFlags insts T2

/-- Flat order on optional flags values: either no value, or the same value. -/
def OptLe (a b : Option Nat) : Prop := ∀ v, a = some v → b = some v

/-- Pointwise flat order on livein tables. -/
def TabLe (T T2 : Nat → Option Nat) : Prop := ∀ b v, T b = some v → T2 b = some v

theorem optLe_refl (a : Option Nat) : OptLe a a := fun _ h => h

theorem optLe_trans {a b c : Option Nat} (h1 : OptLe a b) (h2 : OptLe b c) :
    OptLe a c := fun v h => h2 v (h1 v h)

theorem optLe_none (a : Option Nat) : OptLe none a := by
  intro v h; cases h

theorem optLe_some {v : Nat} {b : Option Nat} (h : OptLe (some v) b) :
    b = some v := h v rfl

theorem tabLe_refl (T : Nat → Option Nat) : TabLe T T := fun _ _ h => h

theorem tabLe_trans {T1 T2 T3 : Nat → Option Nat} (h1 : TabLe T1 T2)
    (h2 : TabLe T2 T3) : TabLe T1 T3 := fun b v h => h2 b v (h1 b v h)

theorem except_bind_ok {ε α β : Type} {x : Except ε α} {f : α → Except ε β}
    {b : β} (h : x >>= f = .ok b) : ∃ a, x = .ok a ∧ f a = .ok b := by
  cases x with
  | error e => simp [Bind.bind, Except.bind] at h
  | ok a => exact ⟨a, rfl, by simpa [Bind.bind, Except.bind] using h⟩

theorem except_bind_error {ε α β : Type} {x : Except ε α} {f : α → Except ε β}
    {e : ε} (h : x = .error e) : x >>= f = .error e := by
  rw [h]; rfl

theorem merge_ok_le {s : Option Nat} {b : Nat} {r : Option Nat}
    (h : merge s b = .ok r) : OptLe s r := by
  cases s with
  | none => exact optLe_none r
  | some va =>
    simp only [merge] at h
    by_cases hbv : b ≠ va
    · rw [if_pos hbv] at h
      cases h
    · rw [if_neg hbv] at h
      rw [← Except.ok.inj h]
      exact optLe_refl _

theorem merge_ok_none {b : Nat} {r : Option Nat}
    (h : merge none b = .ok r) : r = some b :=
  (Except.ok.inj h).symm

theorem merge_ok_some {va b : Nat} {r : Option Nat}
    (h : merge (some va) b = .ok r) : r = some va := by
  simp only [merge] at h
  by_cases hbv : b ≠ va
  · rw [if_pos hbv] at h
    cases h
  · rw [if_neg hbv] at h
    exact (Except.ok.inj h).symm

theorem merge_mono {s s2 : Option Nat} {b : Nat} {r : Option Nat}
    (hle : OptLe s s2) (h : merge s b = .ok r) :
    (∃ err, merge s2 b = .error err) ∨
      ∃ r2, merge s2 b = .ok r2 ∧ OptLe r r2 := by
  cases s2 with
  | none =>
    have hs : s = none := by
      cases s with
      | none => rfl
      | some v => exact absurd (optLe_some hle) (by simp)
    subst hs
    rw [merge_ok_none h]
    exact Or.inr ⟨some b, rfl, optLe_refl _⟩
  | some x =>
    by_cases hb : b = x
    · subst hb
      refine Or.inr ⟨some b, ?_, ?_⟩
      · simp only [merge]
        rw [if_neg (by simp)]
      · cases s with
        | none =>
          rw [merge_ok_none h]
          exact optLe_refl _
        | some va =>
          have hva : va = b := (Option.some.inj (optLe_some hle)).symm
          subst hva
          rw [merge_ok_some h]
          exact optLe_refl _
    · refine Or.inl ⟨.conflicting x b, ?_⟩
      simp only [merge]
      rw [if_pos hb]

theorem foldlM_mono {α : Type} {f g : Option Nat → α → Except FlagsError (Option Nat)}
    (hfg : ∀ s s2 a, OptLe s s2 → ∀ r, f s a = .ok r →
      (∃ err, g s2 a = .error err) ∨ ∃ r2, g s2 a = .ok r2 ∧ OptLe r r2) :
    ∀ (l : List α) (s s2 : Option Nat), OptLe s s2 → ∀ r,
      List.foldlM f s l = .ok r →
      (∃ err, List.foldlM g s2 l = .error err) ∨
        ∃ r2, List.foldlM g s2 l = .ok r2 ∧ OptLe r r2 := by
  intro l
  induction l with
  | nil =>
    intro s s2 hle r h
    simp only [List.foldlM_nil] at h
    have hr : s = r := Except.ok.inj (show Except.ok s = Except.ok r from h)
    exact Or.inr ⟨s2, rfl, hr ▸ hle⟩
  | cons a l ih =>
    intro s s2 hle r h
    simp only [List.foldlM_cons] at h ⊢
    obtain ⟨s1, hs1, hrest⟩ := except_bind_ok h
    rcases hfg s s2 a hle s1 hs1 with ⟨err, herr⟩ | ⟨s3, hs3, hle3⟩
    · exact Or.inl ⟨err, except_bind_error herr⟩
    · rw [hs3]
      rcases ih s1 s3 hle3 r hrest with ⟨err, herr⟩ | ⟨r2, hr2, hler⟩
      · exact Or.inl ⟨err, by simpa [Bind.bind, Except.bind] using herr⟩
      · exact Or.inr ⟨r2, by simpa [Bind.bind, Except.bind] using hr2, hler⟩

theorem merge_arg_mono (isFlags : Nat → Bool) :
    ∀ (s s2 : Option Nat) (a : Nat), OptLe s s2 → ∀ r,
      merge_arg isFlags s a = .ok r →
      (∃ err, merge_arg isFlags s2 a = .error err) ∨
        ∃ r2, merge_arg isFlags s2 a = .ok r2 ∧ OptLe r r2 := by
  intro s s2 a hle r h
  unfold merge_arg at h ⊢
  by_cases hf : isFlags a = true
  · rw [if_pos hf] at h ⊢
    exact merge_mono hle h
  · rw [if_neg hf] at h ⊢
    exact Or.inr ⟨s2, rfl, (Except.ok.inj h) ▸ hle⟩

theorem merge_livein_mono {T T2 : Nat → Option Nat} (hT : TabLe T T2) :
    ∀ (s s2 : Option Nat) (d : Nat), OptLe s s2 → ∀ r,
      merge_livein T s d = .ok r →
      (∃ err, merge_livein T2 s2 d = .error err) ∨
        ∃ r2, merge_livein T2 s2 d = .ok r2 ∧ OptLe r r2 := by
  intro s s2 d hle r h
  unfold merge_livein at h ⊢
  cases hTd : T d with
  | some w =>
    rw [hTd] at h
    rw [hT d w hTd]
    exact merge_mono hle h
  | none =>
    rw [hTd] at h
    have hr : r = s :=
      (Except.ok.inj (show Except.ok s = Except.ok r from h)).symm
    subst hr
    cases hT2d : T2 d with
    | none => exact Or.inr ⟨s2, rfl, hle⟩
    | some u =>
      cases hm : merge s2 u with
      | error err => exact Or.inl ⟨err, hm⟩
      | ok r2 => exact Or.inr ⟨r2, hm, optLe_trans hle (merge_ok_le hm)⟩

theorem check_interference_mono (isFlags : Nat → Bool) (inst : FInst) :
    ∀ (lv lv2 : Option Nat), OptLe lv lv2 → ∀ r,
      check_interference isFlags inst lv = .ok r →
      (∃ err, check_interference isFlags inst lv2 = .error err) ∨
        ∃ r2, check_interference isFlags inst lv2 = .ok r2 ∧ OptLe r r2 := by
  intro lv lv2 hle r h
  cases lv with
  | some l =>
    have hlv2 : lv2 = some l := optLe_some hle
    subst hlv2
    exact Or.inr ⟨r, h, optLe_refl r⟩
  | none =>
    have hr : r = none := by
      simp only [check_interference] at h
      exact (Except.ok.inj h).symm
    subst hr
    cases hres : check_interference isFlags inst lv2 with
    | error err => exact Or.inl ⟨err, rfl⟩
    | ok r2 => exact Or.inr ⟨r2, rfl, optLe_none r2⟩

theorem merge_branch_mono {T T2 : Nat → Option Nat} (hT : TabLe T T2)
    (inst : FInst) :
    ∀ (lv lv2 : Option Nat), OptLe lv lv2 → ∀ r,
      merge_branch T inst lv = .ok r →
      (∃ err, merge_branch T2 inst lv2 = .error err) ∨
        ∃ r2, merge_branch T2 inst lv2 = .ok r2 ∧ OptLe r r2 := by
  intro lv lv2 hle r h
  unfold merge_branch at h ⊢
  cases hb : inst.branch with
  | notABranch =>
    rw [hb] at h
    exact Or.inr ⟨lv2, rfl, (Except.ok.inj h) ▸ hle⟩
  | singleDest d =>
    rw [hb] at h
    exact merge_livein_mono hT lv lv2 d hle r h
  | table ds =>
    rw [hb] at h
    exact foldlM_mono (merge_livein_mono hT) ds lv lv2 hle r h

theorem visit_inst_mono {isFlags : Nat → Bool} {T T2 : Nat → Option Nat}
    (hT : TabLe T T2) (inst : FInst) :
    ∀ (lv lv2 : Option Nat), OptLe lv lv2 → ∀ r,
      visit_inst isFlags T inst lv = .ok r →
      (∃ err, visit_inst isFlags T2 inst lv2 = .error err) ∨
        ∃ r2, visit_inst isFlags T2 inst lv2 = .ok r2 ∧ OptLe r r2 := by
  intro lv lv2 hle r h
  unfold visit_inst at h ⊢
  obtain ⟨a, ha, hrest⟩ := except_bind_ok h
  obtain ⟨b, hbv, hbr⟩ := except_bind_ok hrest
  rcases check_interference_mono isFlags inst lv lv2 hle a ha with
    ⟨err, herr⟩ | ⟨a2, ha2, hlea⟩
  · exact Or.inl ⟨err, except_bind_error herr⟩
  · rw [ha2]
    rcases foldlM_mono (merge_arg_mono isFlags) inst.args a a2 hlea b hbv with
      ⟨err, herr⟩ | ⟨b2, hb2, hleb⟩
    · refine Or.inl ⟨err, ?_⟩
      simpa [Bind.bind, Except.bind] using except_bind_error herr
    · rcases merge_branch_mono hT inst b b2 hleb r hbr with
        ⟨err, herr⟩ | ⟨r2, hr2, hler⟩
      · refine Or.inl ⟨err, ?_⟩
        simpa [Bind.bind, Except.bind, hb2] using herr
      · refine Or.inr ⟨r2, ?_, hler⟩
        simpa [Bind.bind, Except.bind, hb2] using hr2

theorem visit_ebb_mono {isFlags : Nat → Bool} {T T2 : Nat → Option Nat}
    (hT : TabLe T T2) :
    ∀ (l : List FInst) (r : Option Nat),
      visit_ebb isFlags T l = .ok r →
      (∃ err, visit_ebb isFlags T2 l = .error err) ∨
        ∃ r2, visit_ebb isFlags T2 l = .ok r2 ∧ OptLe r r2 := by
  intro l
  induction l with
  | nil =>
    intro r h
    simp only [visit_ebb] at h
    exact Or.inr ⟨none, rfl, (Except.ok.inj h) ▸ optLe_refl _⟩
  | cons inst rest ih =>
    intro r h
    simp only [visit_ebb] at h ⊢
    obtain ⟨a, ha, hrest⟩ := except_bind_ok h
    rcases ih a ha with ⟨err, herr⟩ | ⟨a2, ha2, hlea⟩
    · exact Or.inl ⟨err, except_bind_error herr⟩
    · rcases visit_inst_mono hT inst a a2 hlea r hrest with
        ⟨err, herr⟩ | ⟨r2, hr2, hler⟩
      · refine Or.inl ⟨err, ?_⟩
        simpa [Bind.bind, Except.bind, ha2] using herr
      · refine Or.inr ⟨r2, ?_, hler⟩
        simpa [Bind.bind, Except.bind, ha2] using hr2

theorem check_step_tab_le {isFlags : Nat → Bool} {insts : Nat → List FInst}
    {T T2 : Nat → Option Nat} {e : Nat}
    (h : check_step isFlags insts T e = .ok T2) : TabLe T T2 := by
  cases hv : visit_ebb isFlags T (insts e) with
  | error err =>
    simp only [check_step, hv] at h
    exact Except.noConfusion h
  | ok lv =>
    cases lv with
    | none =>
      simp only [check_step, hv] at h
      obtain rfl := Except.ok.inj h
      exact tabLe_refl T
    | some v =>
      cases hTe : T e with
      | none =>
        simp only [check_step, hv, hTe] at h
        have h2 := Except.ok.inj h
        intro b w hbw
        rw [← h2]
        by_cases hbe : b = e
        · rw [hbe] at hbw
          rw [hTe] at hbw
          cases hbw
        · simp only [hbe, if_neg, if_false]
          exact hbw
      | some old =>
        simp only [check_step, hv, hTe] at h
        by_cases hov : old ≠ v
        · rw [if_pos hov] at h
          cases h
        · rw [if_neg hov] at h
          obtain rfl := Except.ok.inj h
          exact tabLe_refl T

/-- Invariant of the worklist loop: a recorded live-in was reported by a
successful visit under an earlier, smaller livein table. -/
def Inv (isFlags : Nat → Bool) (insts : Nat → List FInst)
    (T : Nat → Option Nat) : Prop :=
  ∀ e v, T e = some v →
    ∃ T0, TabLe T0 T ∧ visit_ebb isFlags T0 (insts e) = .ok (some v)

theorem reach_inv {isFlags : Nat → Bool} {insts : Nat → List FInst}
    {T : Nat → Option Nat} (h : Reach isFlags insts T) :
    Inv isFlags insts T := by
  induction h with
  | init => intro e v h; cases h
  | @step T e T2 hreach hstep ih =>
    have hle : TabLe T T2 := check_step_tab_le hstep
    cases hv : visit_ebb isFlags T (insts e) with
    | error err =>
      simp only [check_step, hv] at hstep
      exact Except.noConfusion hstep
    | ok lv =>
      cases lv with
      | none =>
        simp only [check_step, hv] at hstep
        obtain rfl := Except.ok.inj hstep
        exact ih
      | some v0 =>
        cases hTe : T e with
        | none =>
          simp only [check_step, hv, hTe] at hstep
          have h2 := Except.ok.inj hstep
          intro b w hbw
          by_cases hbe : b = e
          · subst hbe
            have hT2b : T2 b = some v0 := by
              rw [← h2]; simp
            rw [hT2b] at hbw
            refine ⟨T, hle, ?_⟩
            rw [hv, hbw]
          · have hT2b : T2 b = T b := by
              rw [← h2]; simp [hbe]
            rw [hT2b] at hbw
            obtain ⟨T0, hle0, hv0⟩ := ih b w hbw
            exact ⟨T0, tabLe_trans hle0 hle, hv0⟩
        | some old =>
          simp only [check_step, hv, hTe] at hstep
          by_cases hov : old ≠ v0
          · rw [if_pos hov] at hstep
            cases hstep
          · rw [if_neg hov] at hstep
            obtain rfl := Except.ok.inj hstep
            exact ih

theorem reach_visit_stable {isFlags : Nat → Bool} {insts : Nat → List FInst}
    {T : Nat → Option Nat} {e v : Nat} (hreach : Reach isFlags insts T)
    (hTe : T e = some v) :
    ∀ r, visit_ebb isFlags T (insts e) = .ok r → r = some v := by
  intro r hv
  obtain ⟨T0, hle, hv0⟩ := reach_inv hreach e v hTe
  rcases visit_ebb_mono hle (insts e) (some v) hv0 with
    ⟨err, herr⟩ | ⟨r2, hr2, hler⟩
  · rw [herr] at hv; cases hv
  · rw [hr2] at hv
    have : r2 = r := Except.ok.inj hv
    subst this
    exact optLe_some hler

/-- C5: monotonicity of the livein table of FlagsVerifier::check.  First, a
successful worklist step never changes a recorded live-in value.  Second, a
visit reporting the already recorded value leaves the table unchanged.
Third, during any run from the empty table, once livein of an EBB is set to
a value, every later successful visit of that EBB reports exactly that
value; in particular a visit reporting no live-in never occurs once livein
is set (the assertion of the code holds), and no later visit can report a
different value (the conflicting live-in error path is therefore never
reached from the initial table). -/
theorem verify_flags_livein_monotone (isFlags : Nat → Bool)
    (insts : Nat → List FInst) :
    (∀ T e T2, check_step isFlags insts T e = .ok T2 →
      ∀ b v, T b = some v → T2 b = some v) ∧
    (∀ T e v, T e = some v → visit_ebb isFlags T (insts e) = .ok (some v) →
      check_step isFlags insts T e = .ok T) ∧
    (∀ T e v, Reach isFlags insts T → T e = some v →
      ∀ r, visit_ebb isFlags T (insts e) = .ok r → r = some v) := by
  refine ⟨?_, ?_, ?_⟩
  · intro T e T2 hstep b v hbv
    exact check_step_tab_le hstep b v hbv
  · intro T e v hTe hv
    unfold check_step
    rw [hv, hTe]
    simp
  · intro T e v hreach hTe r hv
    exact reach_visit_stable hreach hTe r hv

def isFlagsW5 : Nat → Bool := fun v => v == 1

def instsW5 : Nat → List FInst :=
  fun e => if e = 0 then [⟨[], [1], false, .notABranch⟩] else []

def tabW5 : Nat → Option Nat := fun b => if b = 0 then some 1 else none

theorem verify_flags_livein_monotone_witness :
    tabW5 0 = some 1 ∧
      check_step isFlagsW5 instsW5 tabW5 0 = .ok tabW5 ∧
      (some 1 : Option Nat) = some 1 := by
  have h := verify_flags_livein_monotone isFlagsW5 instsW5
  refine ⟨?_, ?_, ?_⟩
  · exact h.1 tabW5 0 tabW5 (h.2.1 tabW5 0 1 rfl rfl) 0 1 rfl
  · exact h.2.1 tabW5 0 1 rfl rfl
  · refine h.2.2 tabW5 0 1 ?_ rfl (some 1) rfl
    exact @Reach.step isFlagsW5 instsW5 (fun _ => none) 0 tabW5 Reach.init (by rfl)

/-- A value is used as flags by an instruction through a branch: some
destination of the instruction has it as recorded live-in. -/
def branch_uses (livein : Nat → Option Nat) (inst : FInst) (v : Nat) : Bool :=
  match inst.branch with
  | .notABranch => false
  | .singleDest d => livein d == some v
  | .table ds => ds.any (fun d => livein d == some v)

/-- A flags-typed value is used at an instruction: it occurs among the
arguments, or it is the recorded live-in of a branch destination. -/
def uses_flag (isFlags : Nat → Bool) (livein : Nat → Option Nat)
    (inst : FInst) (v : Nat) : Bool :=
  isFlags v && (inst.args.contains v || branch_uses livein inst v)

/-- Liveness of a flags value at the program point before the first
instruction of the list: the value is used by some instruction of the list
with no intervening definition. -/
def live_flag_at (isFlags : Nat → Bool) (livein : Nat → Option Nat) :
    List FInst → Nat → Bool
  | [], _ => false
  | inst :: rest, v =>
    uses_flag isFlags livein inst v ||
      (!(inst.results.contains v) && live_flag_at isFlags livein rest v)

theorem foldlM_inv {α : Type} {f : Option Nat → α → Except FlagsError (Option Nat)}
    (P : Option Nat → Prop)
    (hf : ∀ s a, P s → ∀ s2, f s a = .ok s2 → P s2) :
    ∀ (l : List α) (s r : Option Nat), P s → List.foldlM f s l = .ok r → P r := by
  intro l
  induction l with
  | nil =>
    intro s r hP h
    simp only [List.foldlM_nil] at h
    exact (Except.ok.inj (show Except.ok s = Except.ok r from h)) ▸ hP
  | cons a l ih =>
    intro s r hP h
    simp only [List.foldlM_cons] at h
    obtain ⟨s1, hs1, hrest⟩ := except_bind_ok h
    exact ih s1 r (hf s a hP s1 hs1) hrest

theorem merge_arg_keeps {isFlags : Nat → Bool} {v : Nat} :
    ∀ (s : Option Nat) (a : Nat), s = some v → ∀ s2,
      merge_arg isFlags s a = .ok s2 → s2 = some v := by
  intro s a hs s2 h
  subst hs
  unfold merge_arg at h
  by_cases hf : isFlags a = true
  · rw [if_pos hf] at h
    exact merge_ok_some h
  · rw [if_neg hf] at h
    exact (Except.ok.inj (show Except.ok (some v) = Except.ok s2 from h)).symm

theorem merge_livein_keeps {livein : Nat → Option Nat} {v : Nat} :
    ∀ (s : Option Nat) (d : Nat), s = some v → ∀ s2,
      merge_livein livein s d = .ok s2 → s2 = some v := by
  intro s d hs s2 h
  subst hs
  unfold merge_livein at h
  cases hd : livein d with
  | some w =>
    rw [hd] at h
    exact merge_ok_some h
  | none =>
    rw [hd] at h
    exact (Except.ok.inj (show Except.ok (some v) = Except.ok s2 from h)).symm

theorem merge_intro {s : Option Nat} {v : Nat} {r : Option Nat}
    (h : merge s v = .ok r) : r = some v := by
  cases s with
  | none => exact merge_ok_none h
  | some x =>
    simp only [merge] at h
    by_cases hv : v ≠ x
    · rw [if_pos hv] at h
      cases h
    · rw [if_neg hv] at h
      rw [(Except.ok.inj h).symm, not_not.mp hv]

theorem fold_args_mem {isFlags : Nat → Bool} {v : Nat} (hv : isFlags v = true) :
    ∀ (args : List Nat) (s r : Option Nat), v ∈ args →
      List.foldlM (merge_arg isFlags) s args = .ok r → r = some v := by
  intro args
  induction args with
  | nil => intro s r hm; simp at hm
  | cons a rest ih =>
    intro s r hm h
    simp only [List.foldlM_cons] at h
    obtain ⟨s1, hs1, hrest⟩ := except_bind_ok h
    rcases List.mem_cons.mp hm with rfl | hm2
    · have hs1v : s1 = some v := by
        unfold merge_arg at hs1
        rw [if_pos hv] at hs1
        exact merge_intro hs1
      exact foldlM_inv (fun s => s = some v) merge_arg_keeps rest s1 r hs1v hrest
    · exact ih s1 r hm2 hrest

theorem fold_dests_mem {livein : Nat → Option Nat} {v : Nat} :
    ∀ (ds : List Nat) (s r : Option Nat),
      (∃ d ∈ ds, livein d = some v) →
      List.foldlM (merge_livein livein) s ds = .ok r → r = some v := by
  intro ds
  induction ds with
  | nil => intro s r hm; simp at hm
  | cons d rest ih =>
    intro s r hm h
    simp only [List.foldlM_cons] at h
    obtain ⟨s1, hs1, hrest⟩ := except_bind_ok h
    obtain ⟨d2, hd2, hld2⟩ := hm
    rcases List.mem_cons.mp hd2 with rfl | hm2
    · have hs1v : s1 = some v := by
        unfold merge_livein at hs1
        rw [hld2] at hs1
        exact merge_intro hs1
      exact foldlM_inv (fun s => s = some v) merge_livein_keeps rest s1 r hs1v hrest
    · exact ih s1 r ⟨d2, hm2, hld2⟩ hrest

theorem merge_branch_intro {livein : Nat → Option Nat} {inst : FInst} {v : Nat}
    (hu : branch_uses livein inst v = true) :
    ∀ (s r : Option Nat), merge_branch livein inst s = .ok r → r = some v := by
  intro s r h
  cases hb : inst.branch with
  | notABranch =>
    simp only [branch_uses, hb] at hu
    cases hu
  | singleDest d =>
    simp only [branch_uses, hb] at hu
    simp only [merge_branch, hb] at h
    have hld : livein d = some v := by
      simpa using hu
    simp only [merge_livein, hld] at h
    exact merge_intro h
  | table ds =>
    simp only [branch_uses, hb] at hu
    simp only [merge_branch, hb] at h
    have hex : ∃ d ∈ ds, livein d = some v := by
      obtain ⟨d, hd, hld⟩ := List.any_eq_true.mp hu
      exact ⟨d, hd, by simpa using hld⟩
    exact fold_dests_mem ds s r hex h

theorem merge_branch_keeps {livein : Nat → Option Nat} {inst : FInst} {v : Nat} :
    ∀ (s r : Option Nat), s = some v → merge_branch livein inst s = .ok r →
      r = some v := by
  intro s r hs h
  subst hs
  cases hb : inst.branch with
  | notABranch =>
    simp only [merge_branch, hb] at h
    exact (Except.ok.inj (show Except.ok (some v) = Except.ok r from h)).symm
  | singleDest d =>
    simp only [merge_branch, hb] at h
    exact merge_livein_keeps (some v) d rfl r h
  | table ds =>
    simp only [merge_branch, hb] at h
    exact foldlM_inv (fun s => s = some v) merge_livein_keeps ds (some v) r rfl h

theorem scan_results_no_def {isFlags : Nat → Bool} {v : Nat} :
    ∀ (rs : List Nat) (lv r : Option Nat), rs.contains v = false →
      scan_results isFlags v rs lv = .ok r → r = lv := by
  intro rs
  induction rs with
  | nil =>
    intro lv r _ h
    exact (Except.ok.inj (show Except.ok lv = Except.ok r from h)).symm
  | cons a rest ih =>
    intro lv r hm h
    have hmem : ¬ v ∈ a :: rest := by
      simpa using hm
    have hav : ¬ a = v := fun hav => hmem (hav ▸ List.mem_cons_self a rest)
    unfold scan_results at h
    rw [if_neg hav] at h
    by_cases hf : isFlags a = true
    · rw [if_pos hf] at h
      cases h
    · rw [if_neg hf] at h
      have hrest : rest.contains v = false := by
        cases hc : rest.contains v
        · rfl
        · exfalso
          have hcc : (a :: rest).contains v = true :=
            List.elem_eq_true_of_mem
              (List.mem_cons_of_mem a (List.mem_of_elem_eq_true hc))
          rw [hm] at hcc
          cases hcc
      exact ih lv r hrest h

theorem check_interference_no_def {isFlags : Nat → Bool} {inst : FInst} {v : Nat}
    (hnd : inst.results.contains v = false) :
    ∀ r, check_interference isFlags inst (some v) = .ok r → r = some v := by
  intro r h
  unfold check_interference at h
  obtain ⟨lvs, hscan, hrest⟩ := except_bind_ok h
  have hlvs : lvs = some v := scan_results_no_def inst.results (some v) lvs hnd hscan
  subst hlvs
  by_cases hcl : (inst.clobbersFlags && (some v).isSome) = true
  · rw [if_pos hcl] at hrest
    cases hrest
  · rw [if_neg hcl] at hrest
    exact (Except.ok.inj (show Except.ok (some v) = Except.ok r from hrest)).symm

theorem visit_ebb_live {isFlags : Nat → Bool} {livein : Nat → Option Nat} :
    ∀ (l : List FInst) (lv : Option Nat),
      visit_ebb isFlags livein l = .ok lv →
      ∀ v, live_flag_at isFlags livein l v = true → lv = some v := by
  intro l
  induction l with
  | nil => intro lv _ v hl; cases hl
  | cons inst rest ih =>
    intro lv h v hl
    simp only [visit_ebb] at h
    obtain ⟨lv0, hlv0, hinst⟩ := except_bind_ok h
    unfold visit_inst at hinst
    obtain ⟨a, ha, hrest⟩ := except_bind_ok hinst
    obtain ⟨b, hbv, hbr⟩ := except_bind_ok hrest
    simp only [live_flag_at, Bool.or_eq_true, Bool.and_eq_true] at hl
    rcases hl with hu | ⟨hnd, hlive⟩
    · unfold uses_flag at hu
      simp only [Bool.and_eq_true, Bool.or_eq_true] at hu
      rcases hu.2 with hargs | hbr_use
      · have hb : b = some v :=
          fold_args_mem hu.1 inst.args a b (by simpa using hargs) hbv
        exact merge_branch_keeps b lv hb hbr
      · exact merge_branch_intro hbr_use b lv hbr
    · have hlv0v : lv0 = some v := ih lv0 hlv0 v hlive
      subst hlv0v
      have hav : a = some v :=
        check_interference_no_def (by simpa using hnd) a ha
      have hb : b = some v :=
        foldlM_inv (fun s => s = some v) merge_arg_keeps inst.args a b hav hbv
      exact merge_branch_keeps b lv hb hbr

theorem visit_ebb_drop_ok {isFlags : Nat → Bool} {livein : Nat → Option Nat} :
    ∀ (l : List FInst) (lv : Option Nat),
      visit_ebb isFlags livein l = .ok lv →
      ∀ i, ∃ lv2, visit_ebb isFlags livein (l.drop i) = .ok lv2 := by
  intro l
  induction l with
  | nil => intro lv _ i; exact ⟨none, by cases i <;> rfl⟩
  | cons inst rest ih =>
    intro lv h i
    cases i with
    | zero => exact ⟨lv, h⟩
    | succ i =>
      simp only [visit_ebb] at h
      obtain ⟨lv0, hlv0, _⟩ := except_bind_ok h
      exact ih lv0 hlv0 i

/-- C2: when visit_ebb succeeds, at most one flags-typed value is live at
each program point of the EBB, where liveness at a point means a later use
(as argument, or as recorded live-in of a branch destination) with no
intervening definition; and merging a second, distinct flags value into a
live one fails with the conflicting live CPU flags error naming the two
values. -/
theorem verify_flags_flag_singleton (isFlags : Nat → Bool) :
    (∀ (livein : Nat → Option Nat) (l : List FInst) (lv : Option Nat),
      visit_ebb isFlags livein l = .ok lv →
      ∀ i v w, live_flag_at isFlags livein (l.drop i) v = true →
        live_flag_at isFlags livein (l.drop i) w = true → v = w) ∧
    (∀ a b : Nat, b ≠ a → merge (some a) b = .error (.conflicting a b)) := by
  constructor
  · intro livein l lv h i v w hv hw
    obtain ⟨lv2, h2⟩ := visit_ebb_drop_ok l lv h i
    have hv2 := visit_ebb_live (l.drop i) lv2 h2 v hv
    have hw2 := visit_ebb_live (l.drop i) lv2 h2 w hw
    rw [hv2] at hw2
    exact Option.some.inj hw2
  · intro a b hba
    simp only [merge]
    rw [if_pos hba]

def isFlagsW2 : Nat → Bool := fun v => v == 3

def lW2 : List FInst := [⟨[], [3], false, .notABranch⟩]

theorem verify_flags_flag_singleton_witness :
    (3 : Nat) = 3 ∧
      merge (some 1) 2 = .error (.conflicting 1 2) := by
  have h := verify_flags_flag_singleton isFlagsW2
  exact ⟨h.1 (fun _ => none) lW2 (some 3) rfl 0 3 3 (by decide) (by decide),
    h.2 1 2 (by decide)⟩

/-- C4 (amended): when a flags value live is live below an instruction, the
result scan succeeds leaving the value still live (the instruction does not
define it), and the instruction's encoding constraints report
clobbers_flags, then visiting the instruction fails with the encoding
clobbers live CPU flags error naming the live value.  The code applies the
clobbers_flags check only while live_val is still Some after the result
scan, so an instruction that defines the live value itself is exempt. -/
theorem visit_inst_encoding_clobber (isFlags : Nat → Bool)
    (livein : Nat → Option Nat) (inst : FInst) (live : Nat) (lvs : Option Nat)
    (hscan : scan_results isFlags live inst.results (some live) = .ok lvs)
    (hsome : lvs.isSome = true) (hclob : inst.clobbersFlags = true) :
    visit_inst isFlags livein inst (some live) = .error (.encodingClobbers live) := by
  have hcheck : check_interference isFlags inst (some live) =
      .error (.encodingClobbers live) := by
    simp only [check_interference, hscan]
    simp [Bind.bind, Except.bind, hclob, hsome, throw, throwThe,
      MonadExceptOf.throw]
  unfold visit_inst
  rw [except_bind_error hcheck]

def isFlagsW4 : Nat → Bool := fun v => v == 0

/-- A two-instruction EBB: the first instruction defines flags value 0 with
an encoding that clobbers the flags, the second uses it. -/
def instsW4 : List FInst :=
  [⟨[0], [], true, .notABranch⟩, ⟨[], [0], false, .notABranch⟩]

theorem visit_inst_encoding_clobber_counterexample :
    visit_ebb isFlagsW4 (fun _ => none) instsW4 = .ok none ∧
      visit_ebb isFlagsW4 (fun _ => none) instsW4 ≠
        .error (.encodingClobbers 0) := by
  have h1 : visit_ebb isFlagsW4 (fun _ => none) instsW4 = .ok none := rfl
  refine ⟨h1, ?_⟩
  rw [h1]
  exact fun hcontra => Except.noConfusion hcontra

theorem visit_inst_encoding_clobber_witness :
    visit_inst isFlagsW4 (fun _ => none) ⟨[], [], true, .notABranch⟩ (some 0) =
      .error (.encodingClobbers 0) :=
  visit_inst_encoding_clobber isFlagsW4 (fun _ => none)
    ⟨[], [], true, .notABranch⟩ 0 (some 0) rfl rfl rfl

/-! ## Section 3: parser

Embedding of the claim-relevant parts of lib/reader/src/parser.rs: type
inference for polymorphic opcodes (infer_typevar), ISA specification parsing
(parse_isa_specs), value aliases (parse_value_alias and the alias post-pass
of parse_function_body), and the dense entity vectors of the Context add
methods.  Types and opcodes are embedded as natural numbers with VOID the
distinguished void type; the opcode constraints table, the lexer and the
SourceMap are external collaborators embedded as parameters. -/

/-- The void type, the controlling type of a non-polymorphic opcode. -/
def VOID : Nat := 0

/-- A controlling typeset of the opcode constraints table: its member types
and the example type used in error messages (the result of calling example
on the typeset). -/
structure TypeSet where
  elems : List Nat
  exampleTy : Nat
deriving DecidableEq

/-- The constraints descriptor of one opcode, as consulted by
infer_typevar through is_polymorphic, use_typevar_operand and
ctrl_typeset. -/
structure OpConstraints where
  isPolymorphic : Bool
  useTypevarOperand : Bool
  ctrlTypeset : Option TypeSet
deriving DecidableEq

/-- Errors of infer_typevar, with the formatted values in message order.
The inconsistentConstraints case embeds the expect panic on a missing
typevar operand. -/
inductive InferErr where
  | typevarNotYetDefined (op exTy src : Nat)
  | typevarNotYetResolved (op exTy src : Nat)
  | typevarRequired (op exTy : Nat)
  | notValidTypevar (ty op : Nat)
  | doesNotTakeTypevar (op : Nat)
  | inconsistentConstraints
deriving DecidableEq

/-- The example type of the controlling typeset for error messages; the
source unwraps the optional typeset here (a panic when absent, which cannot
happen for a well-formed constraints table), embedded as 0. -/
def exampleOf : Option TypeSet → Nat
  | some ts => ts.exampleTy
  | none => 0

/-- Embeds infer_typevar.  The parser context is embedded as predicates:
containsValue for map.contains_value, validValue for
dfg.value_is_valid_for_parser, valueType for dfg.value_type; typevarOperand
is the designated operand of the instruction data.  The early returns of
the source become error propagation between the two phases. -/
def infer_typevar (containsValue validValue : Nat → Bool)
    (valueType : Nat → Nat) (constraints : OpConstraints) (op : Nat)
    (explicitCtrlType : Option Nat) (typevarOperand : Option Nat) :
    Except InferErr Nat :=
  let ctrlTypeRes : Except InferErr Nat :=
    match explicitCtrlType with
    | some t => .ok t
    | none =>
      if constraints.useTypevarOperand then
        match typevarOperand with
        | none => .error .inconsistentConstraints
        | some src =>
          if !(containsValue src) then
            .error (.typevarNotYetDefined op (exampleOf constraints.ctrlTypeset) src)
          else if !(validValue src) then
            .error (.typevarNotYetResolved op (exampleOf constraints.ctrlTypeset) src)
          else
            .ok (valueType src)
      else if constraints.isPolymorphic then
        .error (.typevarRequired op (exampleOf constraints.ctrlTypeset))
      else
        .ok VOID
  match ctrlTypeRes with
  | .error e => .error e
  | .ok ctrlType =>
    match constraints.ctrlTypeset with
    | some ts =>
      if !(ts.elems.contains ctrlType) then
        .error (.notValidTypevar ctrlType op)
      else
        .ok ctrlType
    | none =>
      if ctrlType ≠ VOID then
        .error (.doesNotTakeTypevar op)
      else
        .ok ctrlType

/-- C6: for a non-polymorphic opcode (not polymorphic, no typevar operand
inference, no controlling typeset), infer_typevar returns VOID when no
explicit annotation is written, and fails with the does-not-take-a-typevar
error when an explicit type is written; for an opcode with a controlling
typeset, an explicit or an inferred controlling type outside the typeset
fails with the not-a-valid-typevar error naming the type and the opcode. -/
theorem infer_typevar_spec (containsValue validValue : Nat → Bool)
    (valueType : Nat → Nat) (op : Nat) :
    (∀ tvop, infer_typevar containsValue validValue valueType
        ⟨false, false, none⟩ op none tvop = .ok VOID) ∧
    (∀ t tvop, t ≠ VOID → infer_typevar containsValue validValue valueType
        ⟨false, false, none⟩ op (some t) tvop =
          .error (.doesNotTakeTypevar op)) ∧
    (∀ (poly uto : Bool) (ts : TypeSet) (t : Nat) (tvop : Option Nat),
      ts.elems.contains t = false →
      infer_typevar containsValue validValue valueType
        ⟨poly, uto, some ts⟩ op (some t) tvop =
          .error (.notValidTypevar t op)) ∧
    (∀ (poly : Bool) (ts : TypeSet) (src : Nat),
      containsValue src = true → validValue src = true →
      ts.elems.contains (valueType src) = false →
      infer_typevar containsValue validValue valueType
        ⟨poly, true, some ts⟩ op none (some src) =
          .error (.notValidTypevar (valueType src) op)) := by
  refine ⟨?_, ?_, ?_, ?_⟩
  · intro tvop
    simp [infer_typevar, VOID]
  · intro t tvop ht
    simp [infer_typevar, ht]
  · intro poly uto ts t tvop hts
    simp only [infer_typevar]
    rw [if_pos (by rw [hts]; rfl)]
  · intro poly ts src hc hv hts
    simp [infer_typevar, hc, hv]
    intro hmem
    have hcc := List.elem_eq_true_of_mem hmem
    rw [show ts.elems.elem (valueType src) = ts.elems.contains (valueType src)
      from rfl, hts] at hcc
    cases hcc

def cvW : Nat → Bool := fun _ => true

def vtW : Nat → Nat := fun _ => 5

theorem infer_typevar_spec_witness :
    infer_typevar cvW cvW vtW ⟨false, false, none⟩ 1 none none = .ok VOID ∧
      infer_typevar cvW cvW vtW ⟨false, false, none⟩ 1 (some 3) none =
        .error (.doesNotTakeTypevar 1) ∧
      infer_typevar cvW cvW vtW ⟨true, false, some ⟨[2], 2⟩⟩ 1 (some 3) none =
        .error (.notValidTypevar 3 1) ∧
      infer_typevar cvW cvW vtW ⟨true, true, some ⟨[2], 2⟩⟩ 1 none (some 0) =
        .error (.notValidTypevar 5 1) := by
  have h := infer_typevar_spec cvW cvW vtW 1
  exact ⟨h.1 none, h.2.1 3 none (by decide),
    h.2.2.1 true false ⟨[2], 2⟩ 3 none (by decide),
    h.2.2.2 true ⟨[2], 2⟩ 0 rfl rfl (by decide)⟩

/-- One prelude line consumed by parse_isa_specs: a set command or an isa
command with its ISA name; option words are carried as strings, with
isaspec parse_options abstracted as accumulation (option syntax errors are
outside this claim). -/
inductive IsaLine where
  | setCmd (opts : List String)
  | isaCmd (name : String) (opts : List String)
deriving DecidableEq

/-- The result of isa lookup for a name, an external collaborator. -/
inductive LookupResult where
  | unknown
  | unsupported
  | supported
deriving DecidableEq

inductive IsaErr where
  | unknownIsa (name : String)
  | danglingSet
deriving DecidableEq

/-- The result of parse_isa_specs: no isa command seen, carrying the
accumulated flags, or the list of constructed ISAs, each carrying its name,
the snapshot of the shared flags at its line, and its own options. -/
inductive IsaSpec where
  | noneSpec (flags : List String)
  | someSpec (isas : List (String × List String × List String))
deriving DecidableEq

/-- The loop state of parse_isa_specs: whether an isa command was
successfully constructed (seen_isa), whether a set command is pending since
the last constructed isa (last_set_loc, as a flag), the shared flag
builder, and the constructed ISAs. -/
structure IsaState where
  seenIsa : Bool
  danglingSet : Bool
  flags : List String
  isas : List (String × List String × List String)
deriving DecidableEq

/-- One iteration of the command loop of parse_isa_specs: set records the
pending-set flag and accumulates options; isa looks the name up, errors on
an unknown name, skips an unsupported one entirely (the continue precedes
the updates of last_set_loc and seen_isa), and otherwise clears the
pending-set flag, marks seen_isa and constructs the ISA from the snapshot
of the shared flags. -/
def isa_step (lookup : String → LookupResult) (s : IsaState) :
    IsaLine → Except IsaErr IsaState
  | .setCmd opts => .ok { s with danglingSet := true, flags := s.flags ++ opts }
  | .isaCmd name opts =>
    match lookup name with
    | .unknown => .error (.unknownIsa name)
    | .unsupported => .ok s
    | .supported =>
      .ok { seenIsa := true, danglingSet := false, flags := s.flags,
            isas := s.isas ++ [(name, s.flags, opts)] }

def isa_run (lookup : String → LookupResult) :
    List IsaLine → IsaState → Except IsaErr IsaState
  | [], s => .ok s
  | line :: rest, s =>
    match isa_step lookup s line with
    | .error e => .error e
    | .ok s2 => isa_run lookup rest s2

/-- The epilogue of parse_isa_specs: without any seen isa the accumulated
flags are returned; a pending set after the last constructed isa is the
dangling-set error; otherwise the constructed ISAs are returned. -/
def isa_finish (s : IsaState) : Except IsaErr IsaSpec :=
  if !s.seenIsa then .ok (.noneSpec s.flags)
  else if s.danglingSet then .error .danglingSet
  else .ok (.someSpec s.isas)

/-- Embeds parse_isa_specs over the list of set and isa command lines. -/
def parse_isa_specs (lookup : String → LookupResult) (lines : List IsaLine) :
    Except IsaErr IsaSpec :=
  match isa_run lookup lines ⟨false, false, [], []⟩ with
  | .error e => .error e
  | .ok s => isa_finish s

/-- An isa line whose name lookup succeeds, i.e. a successfully constructed
ISA. -/
def isOkIsa (lookup : String → LookupResult) : IsaLine → Bool
  | .isaCmd name _ =>
    match lookup name with
    | .supported => true
    | _ => false
  | .setCmd _ => false

def hasOkIsa (lookup : String → LookupResult) (lines : List IsaLine) : Bool :=
  lines.any (isOkIsa lookup)

def isSetLine : IsaLine → Bool
  | .setCmd _ => true
  | .isaCmd _ _ => false

/-- A set line occurs with no successfully constructed isa after it. -/
def dangAfter (lookup : String → LookupResult) : List IsaLine → Bool
  | [] => false
  | line :: rest =>
    dangAfter lookup rest || (isSetLine line && !hasOkIsa lookup rest)

/-- The options of all set lines, in order. -/
def setOpts : List IsaLine → List String
  | [] => []
  | .setCmd opts :: rest => opts ++ setOpts rest
  | .isaCmd _ _ :: rest => setOpts rest

/-- No isa line of the list has an unknown name. -/
def NoUnknown (lookup : String → LookupResult) (lines : List IsaLine) : Prop :=
  ∀ name opts, IsaLine.isaCmd name opts ∈ lines → lookup name ≠ .unknown

theorem isa_run_ok (lookup : String → LookupResult) :
    ∀ (lines : List IsaLine) (s : IsaState), NoUnknown lookup lines →
      ∃ s2, isa_run lookup lines s = .ok s2 ∧
        s2.seenIsa = (s.seenIsa || hasOkIsa lookup lines) ∧
        s2.danglingSet = ((s.danglingSet && !hasOkIsa lookup lines) ||
          dangAfter lookup lines) ∧
        s2.flags = s.flags ++ setOpts lines := by
  intro lines
  induction lines with
  | nil =>
    intro s _
    exact ⟨s, rfl, by simp [hasOkIsa], by simp [hasOkIsa, dangAfter], by simp [setOpts]⟩
  | cons line rest ih =>
    intro s hnu
    have hnur : NoUnknown lookup rest := by
      intro name opts hm
      exact hnu name opts (List.mem_cons_of_mem line hm)
    cases line with
    | setCmd opts =>
      obtain ⟨s2, hrun, hseen, hdang, hflags⟩ :=
        ih { s with danglingSet := true, flags := s.flags ++ opts } hnur
      refine ⟨s2, ?_, ?_, ?_, ?_⟩
      · simp only [isa_run, isa_step]
        exact hrun
      · simpa [hasOkIsa, isOkIsa] using hseen
      · rw [hdang]
        simp only [hasOkIsa, List.any_cons, isOkIsa, dangAfter, isSetLine,
          Bool.false_or, Bool.true_and]
        cases hasOkIsa lookup rest <;> cases s.danglingSet <;>
          cases dangAfter lookup rest <;> simp [hasOkIsa]
      · rw [hflags]
        simp [setOpts]
    | isaCmd name opts =>
      cases hl : lookup name with
      | unknown =>
        exact absurd hl (hnu name opts (List.mem_cons_self _ _))
      | unsupported =>
        obtain ⟨s2, hrun, hseen, hdang, hflags⟩ := ih s hnur
        refine ⟨s2, ?_, ?_, ?_, ?_⟩
        · simp only [isa_run, isa_step, hl]
          exact hrun
        · simpa [hasOkIsa, isOkIsa, hl] using hseen
        · rw [hdang]
          simp [hasOkIsa, isOkIsa, hl, dangAfter, isSetLine]
        · rw [hflags]
          simp [setOpts]
      | supported =>
        obtain ⟨s2, hrun, hseen, hdang, hflags⟩ :=
          ih { seenIsa := true, danglingSet := false, flags := s.flags,
               isas := s.isas ++ [(name, s.flags, opts)] } hnur
        refine ⟨s2, ?_, ?_, ?_, ?_⟩
        · simp only [isa_run, isa_step, hl]
          exact hrun
        · simp [hasOkIsa, isOkIsa, hl, hseen]
        · rw [hdang]
          simp [hasOkIsa, isOkIsa, hl, dangAfter, isSetLine]
        · rw [hflags]
          simp [setOpts]

theorem dangAfter_iff (lookup : String → LookupResult) :
    ∀ lines, dangAfter lookup lines = true ↔
      ∃ l1 opts l2, lines = l1 ++ .setCmd opts :: l2 ∧
        ∀ line ∈ l2, isOkIsa lookup line = false := by
  intro lines
  induction lines with
  | nil =>
    simp only [dangAfter, Bool.false_eq_true, false_iff]
    rintro ⟨l1, opts, l2, heq, _⟩
    cases l1 <;> cases heq
  | cons x rest ih =>
    simp only [dangAfter, Bool.or_eq_true, Bool.and_eq_true]
    constructor
    · rintro (hd | ⟨hset, hno⟩)
      · obtain ⟨l1, opts, l2, heq, hno⟩ := ih.mp hd
        exact ⟨x :: l1, opts, l2, by rw [heq]; rfl, hno⟩
      · cases x with
        | isaCmd name opts => cases hset
        | setCmd opts =>
          refine ⟨[], opts, rest, rfl, ?_⟩
          intro line hline
          have hfa : hasOkIsa lookup rest = false := by
            simpa using hno
          have hfa2 := List.any_eq_false.mp
            (show rest.any (isOkIsa lookup) = false from hfa)
          simpa using hfa2 line hline
    · rintro ⟨l1, opts, l2, heq, hno⟩
      cases l1 with
      | nil =>
        simp only [List.nil_append] at heq
        injection heq with h1 h2
        subst h1
        subst h2
        refine Or.inr ⟨rfl, ?_⟩
        have hfalse : hasOkIsa lookup rest = false := by
          apply List.any_eq_false.mpr
          intro line hline
          simp [hno line hline]
        simp [hfalse]
      | cons y l1 =>
        simp only [List.cons_append] at heq
        injection heq with h1 h2
        subst h1
        exact Or.inl (ih.mpr ⟨l1, opts, l2, h2, hno⟩)

/-- C7: with every isa name recognized (no unknown lookup), parse_isa_specs
fails with the dangling-set error exactly when some isa line was
successfully constructed and a set line occurs after the last successfully
constructed isa line; with no isa line at all it succeeds returning the
accumulated set options; an unknown isa name is an error and an unsupported
one is skipped leaving the state unchanged. -/
theorem parse_isa_specs_spec (lookup : String → LookupResult)
    (lines : List IsaLine) :
    (NoUnknown lookup lines →
      (parse_isa_specs lookup lines = .error .danglingSet ↔
        ∃ l1 opts l2, lines = l1 ++ .setCmd opts :: l2 ∧
          (∃ line ∈ l1, isOkIsa lookup line = true) ∧
          ∀ line ∈ l2, isOkIsa lookup line = false)) ∧
    ((∀ name opts, IsaLine.isaCmd name opts ∉ lines) →
      parse_isa_specs lookup lines = .ok (.noneSpec (setOpts lines))) ∧
    (∀ s name opts, lookup name = .unknown →
      isa_step lookup s (.isaCmd name opts) = .error (.unknownIsa name)) ∧
    (∀ s name opts, lookup name = .unsupported →
      isa_step lookup s (.isaCmd name opts) = .ok s) := by
  refine ⟨?_, ?_, ?_, ?_⟩
  · intro hnu
    obtain ⟨s2, hrun, hseen, hdang, _⟩ :=
      isa_run_ok lookup lines ⟨false, false, [], []⟩ hnu
    have hparse : parse_isa_specs lookup lines = isa_finish s2 := by
      simp only [parse_isa_specs, hrun]
    rw [hparse]
    have hdang2 : s2.danglingSet = dangAfter lookup lines := by
      simpa using hdang
    have hfin : isa_finish s2 = .error .danglingSet ↔
        (hasOkIsa lookup lines = true ∧ dangAfter lookup lines = true) := by
      rw [← hdang2, ← show (false || hasOkIsa lookup lines) =
        hasOkIsa lookup lines by simp, ← hseen]
      unfold isa_finish
      cases hs : s2.seenIsa <;> cases hd : s2.danglingSet <;>
        simp [hs, hd]
    rw [hfin]
    constructor
    · rintro ⟨hok, hd⟩
      obtain ⟨l1, opts, l2, heq, hno⟩ := (dangAfter_iff lookup lines).mp hd
      obtain ⟨line, hmem, hok2⟩ := List.any_eq_true.mp hok
      refine ⟨l1, opts, l2, heq, ⟨line, ?_, hok2⟩, hno⟩
      rw [heq] at hmem
      rcases List.mem_append.mp hmem with h1 | h2
      · exact h1
      · rcases List.mem_cons.mp h2 with rfl | h3
        · cases hok2
        · rw [hno line h3] at hok2
          cases hok2
    · rintro ⟨l1, opts, l2, heq, ⟨line, hl1, hok⟩, hno⟩
      constructor
      · exact List.any_eq_true.mpr ⟨line, by
          rw [heq]; exact List.mem_append.mpr (Or.inl hl1), hok⟩
      · exact (dangAfter_iff lookup lines).mpr ⟨l1, opts, l2, heq, hno⟩
  · intro hnoisa
    have hnu : NoUnknown lookup lines := by
      intro name opts hm
      exact absurd hm (hnoisa name opts)
    obtain ⟨s2, hrun, hseen, _, hflags⟩ :=
      isa_run_ok lookup lines ⟨false, false, [], []⟩ hnu
    have hok : hasOkIsa lookup lines = false := by
      apply List.any_eq_false.mpr
      intro line hline
      cases line with
      | setCmd opts => simp [isOkIsa]
      | isaCmd name opts => exact absurd hline (hnoisa name opts)
    have hseen2 : s2.seenIsa = false := by
      rw [hseen, hok]
      rfl
    simp only [parse_isa_specs, hrun, isa_finish, hseen2, Bool.not_false,
      if_pos]
    rw [show s2.flags = setOpts lines by simpa using hflags]
  · intro s name opts hl
    simp [isa_step, hl]
  · intro s name opts hl
    simp [isa_step, hl]

def lookupW : String → LookupResult :=
  fun n => if n = "x" then .supported else
    if n = "u" then .unsupported else .unknown

def linesW : List IsaLine := [.isaCmd "x" [], .setCmd ["a"]]

theorem parse_isa_specs_spec_witness :
    parse_isa_specs lookupW linesW = .error .danglingSet ∧
      parse_isa_specs lookupW [.setCmd ["a"]] = .ok (.noneSpec ["a"]) ∧
      isa_step lookupW ⟨false, false, [], []⟩ (.isaCmd "q" []) =
        .error (.unknownIsa "q") ∧
      isa_step lookupW ⟨false, false, [], []⟩ (.isaCmd "u" []) =
        .ok ⟨false, false, [], []⟩ := by
  refine ⟨?_, ?_, ?_, ?_⟩
  · refine ((parse_isa_specs_spec lookupW linesW).1 ?_).mpr
      ⟨[.isaCmd "x" []], ["a"], [], rfl,
        ⟨.isaCmd "x" [], by simp, by decide⟩, by simp⟩
    intro name opts hm
    simp only [linesW, List.mem_cons, List.not_mem_nil, or_false] at hm
    rcases hm with hm | hm
    · injection hm with h1 h2
      subst h1
      simp [lookupW]
    · cases hm
  · refine (parse_isa_specs_spec lookupW [.setCmd ["a"]]).2.1 ?_
    intro name opts hm
    rcases List.mem_cons.mp hm with hm2 | hm2
    · cases hm2
    · cases hm2
  · exact (parse_isa_specs_spec lookupW linesW).2.2.1 _ "q" [] (by decide)
  · exact (parse_isa_specs_spec lookupW linesW).2.2.2 _ "u" [] (by decide)

inductive AliasErr where
  | wrongNumberOfAliases
  | aliasCycle (v : Nat)
deriving DecidableEq

/-- Embeds the arity check and edge recording of parse_value_alias: exactly
one result value is required, and the alias edge from that result to the
destination value is recorded. -/
def parse_value_alias (results : List Nat) (dest : Nat) :
    Except AliasErr (Nat × Nat) :=
  match results with
  | [r] => .ok (r, dest)
  | _ => .error .wrongNumberOfAliases

/-- Modelled from the spec: set_alias_type_for_parser and resolve_aliases
of the DataFlowGraph are not among the sources (only the parser calling
them is).  Per the alias post-pass description of the spec, the walk
follows the alias chain from a value, propagating the terminal type, and
signals a cycle when the walk revisits an alias; over a functional edge
list this is exactly failure to reach a non-alias value within
(number of edges) + 1 lookups.  resolveAliases walks the chain with the
given fuel and returns the terminal value when reached. -/
def resolveAliases (am : List (Nat × Nat)) : Nat → Nat → Option Nat
  | 0, v =>
    match am.lookup v with
    | none => some v
    | some _ => none
  | fuel + 1, v =>
    match am.lookup v with
    | none => some v
    | some w => resolveAliases am fuel w

/-- Modelled from the spec: the success of set_alias_type_for_parser on one
alias value, i.e. its chain reaches a non-alias value. -/
def set_alias_type (am : List (Nat × Nat)) (v : Nat) : Bool :=
  (resolveAliases am am.length v).isSome

/-- The alias post-pass of parse_function_body: every recorded alias value
is re-typed, and the first one whose walk signals a cycle is the alias
cycle error. -/
def alias_post_pass (am : List (Nat × Nat)) : Except AliasErr Unit :=
  match am.find? (fun p => !(set_alias_type am p.1)) with
  | some p => .error (.aliasCycle p.1)
  | none => .ok ()

/-- Iterating the alias edge map k times. -/
def iterAlias (am : List (Nat × Nat)) : Nat → Nat → Option Nat
  | 0, v => some v
  | k + 1, v =>
    match am.lookup v with
    | none => none
    | some w => iterAlias am k w

/-- The alias relation has no cycle: no positive number of edge steps leads
from a value back to itself. -/
def AliasAcyclic (am : List (Nat × Nat)) : Prop :=
  ∀ v k, 0 < k → iterAlias am k v ≠ some v

theorem iterAlias_add (am : List (Nat × Nat)) :
    ∀ (a b v : Nat), iterAlias am (a + b) v =
      (iterAlias am a v).bind (iterAlias am b) := by
  intro a
  induction a with
  | zero => intro b v; simp [iterAlias]
  | succ a ih =>
    intro b v
    rw [Nat.succ_add]
    simp only [iterAlias]
    cases hl : am.lookup v with
    | none => rfl
    | some w => exact ih b w

theorem cycle_step (am : List (Nat × Nat)) {v w : Nat} {k : Nat}
    (hk : 0 < k) (hcyc : iterAlias am k v = some v)
    (hl : am.lookup v = some w) :
    iterAlias am k w = some w := by
  obtain ⟨m, rfl⟩ : ∃ m, k = m + 1 := ⟨k - 1, by omega⟩
  have hm : iterAlias am m w = some v := by
    simp only [iterAlias, hl] at hcyc
    exact hcyc
  have : iterAlias am (m + 1) w = (iterAlias am m w).bind (iterAlias am 1) :=
    iterAlias_add am m 1 w
  rw [this, hm]
  simp [iterAlias, hl]

theorem cycle_no_resolve (am : List (Nat × Nat)) :
    ∀ (fuel v : Nat), (∃ k, 0 < k ∧ iterAlias am k v = some v) →
      resolveAliases am fuel v = none := by
  intro fuel
  induction fuel with
  | zero =>
    rintro v ⟨k, hk, hcyc⟩
    obtain ⟨m, rfl⟩ : ∃ m, k = m + 1 := ⟨k - 1, by omega⟩
    simp only [iterAlias] at hcyc
    cases hl : am.lookup v with
    | none => rw [hl] at hcyc; cases hcyc
    | some w => simp [resolveAliases, hl]
  | succ fuel ih =>
    rintro v ⟨k, hk, hcyc⟩
    obtain ⟨m, hm⟩ : ∃ m, k = m + 1 := ⟨k - 1, by omega⟩
    subst hm
    cases hl : am.lookup v with
    | none => simp only [iterAlias, hl] at hcyc; cases hcyc
    | some w =>
      simp only [resolveAliases, hl]
      exact ih w ⟨m + 1, by omega, cycle_step am (by omega) hcyc hl⟩

theorem lookup_mem : ∀ (am : List (Nat × Nat)) (v w : Nat),
    am.lookup v = some w → (v, w) ∈ am := by
  intro am
  induction am with
  | nil => intro v w h; cases h
  | cons p rest ih =>
    intro v w h
    obtain ⟨k, b⟩ := p
    simp only [List.lookup] at h
    cases hbeq : (v == k) with
    | true =>
      rw [hbeq] at h
      have hvk : v = k := by simpa using hbeq
      subst hvk
      exact (Option.some.inj h) ▸ List.mem_cons_self _ _
    | false =>
      rw [hbeq] at h
      exact List.mem_cons_of_mem _ (ih v w h)

/-- C8: a value-alias body whose number of results is not one fails with the
wrong-number-of-aliases error; and when the alias post-pass succeeds, the
recorded alias relation is acyclic and resolve_aliases reaches a terminal
value for every value within (number of aliases) steps. -/
theorem value_alias_spec :
    (∀ (results : List Nat) (dest : Nat), results.length ≠ 1 →
      parse_value_alias results dest = .error .wrongNumberOfAliases) ∧
    (∀ am : List (Nat × Nat), alias_post_pass am = .ok () →
      AliasAcyclic am ∧
      ∀ v, (resolveAliases am am.length v).isSome = true) := by
  constructor
  · intro results dest hlen
    match results with
    | [] => rfl
    | [r] => exact absurd rfl hlen
    | r :: r2 :: rest => rfl
  · intro am hok
    have hall : ∀ p ∈ am, set_alias_type am p.1 = true := by
      intro p hp
      unfold alias_post_pass at hok
      cases hf : am.find? (fun p => !(set_alias_type am p.1)) with
      | some q => rw [hf] at hok; cases hok
      | none =>
        have := List.find?_eq_none.mp hf p hp
        simpa using this
    constructor
    · intro v k hk hcyc
      have hl : ∃ w, am.lookup v = some w := by
        obtain ⟨m, rfl⟩ : ∃ m, k = m + 1 := ⟨k - 1, by omega⟩
        simp only [iterAlias] at hcyc
        cases hl : am.lookup v with
        | none => rw [hl] at hcyc; cases hcyc
        | some w => exact ⟨w, rfl⟩
      obtain ⟨w, hw⟩ := hl
      have hmem : (v, w) ∈ am := lookup_mem am v w hw
      have hset := hall (v, w) hmem
      unfold set_alias_type at hset
      rw [cycle_no_resolve am am.length v ⟨k, hk, hcyc⟩] at hset
      cases hset
    · intro v
      cases hl : am.lookup v with
      | none =>
        cases hfl : am.length with
        | zero => simp [resolveAliases, hl]
        | succ n => simp [resolveAliases, hl]
      | some w =>
        have hmem : (v, w) ∈ am := lookup_mem am v w hl
        exact hall (v, w) hmem

theorem value_alias_spec_witness :
    parse_value_alias [] 5 = .error .wrongNumberOfAliases ∧
      AliasAcyclic [(1, 2)] ∧
      (resolveAliases [(1, 2)] 1 1).isSome = true := by
  refine ⟨value_alias_spec.1 [] 5 (by decide), ?_, ?_⟩
  · exact (value_alias_spec.2 [(1, 2)] (by rfl)).1
  · exact (value_alias_spec.2 [(1, 2)] (by rfl)).2 1

inductive StackSlotKind where
  | spillSlot
  | explicitSlot
  | incomingArg
  | outgoingArg
deriving DecidableEq

structure StackSlotData where
  kind : StackSlotKind
  size : Nat
deriving DecidableEq

/-- The default filler of add_ss: a zero-size spill slot. -/
def ss_default : StackSlotData := ⟨.spillSlot, 0⟩

/-- Embeds the dense-vector growth shared by the Context add methods
(add_ss, add_gv, add_heap, add_sig, add_fn, add_jt): while the next key is
at most the handle index a kind-specific default entity is created, then
slot k is overwritten with the data; the while loop amounts to padding the
vector with defaults up to length max(len, k+1). -/
def add_entity {α : Type} (vec : List α) (k : Nat) (dflt : α) (data : α) :
    List α :=
  (vec ++ List.replicate (k + 1 - vec.length) dflt).set k data

/-- Embeds add_ss: the default filler is a zero-size spill slot. -/
def add_ss (vec : List StackSlotData) (ss : Nat) (data : StackSlotData) :
    List StackSlotData :=
  add_entity vec ss ss_default data

/-- A parse run over one entity kind: the recorded definitions are
processed in order by the add method, from the empty backing vector. -/
def run_defs {α : Type} (dflt : α) (defs : List (Nat × α)) : List α :=
  defs.foldl (fun vec p => add_entity vec p.1 dflt p.2) []

theorem add_entity_length {α : Type} (vec : List α) (k : Nat) (dflt data : α) :
    (add_entity vec k dflt data).length = max vec.length (k + 1) := by
  simp only [add_entity, List.length_set, List.length_append,
    List.length_replicate]
  omega

theorem run_defs_length_ge {α : Type} (dflt : α) :
    ∀ (defs : List (Nat × α)) (vec : List α),
      vec.length ≤ (defs.foldl (fun vec p => add_entity vec p.1 dflt p.2) vec).length := by
  intro defs
  induction defs with
  | nil => intro vec; simp
  | cons q rest ih =>
    intro vec
    simp only [List.foldl_cons]
    calc vec.length ≤ (add_entity vec q.1 dflt q.2).length := by
          rw [add_entity_length]; omega
      _ ≤ _ := ih (add_entity vec q.1 dflt q.2)

/-- C9: the add methods grow the backing vector to length max(len, k+1);
every slot between the old length and k is filled with the kind-specific
default (for stack slots, a zero-size spill slot); slot k is overwritten
with the definition; and after processing any list of definitions from the
empty vector, every defined handle is strictly below the length of the
backing vector. -/
theorem add_entity_spec :
    (∀ (α : Type) (vec : List α) (k : Nat) (dflt data : α),
      (add_entity vec k dflt data).length = max vec.length (k + 1)) ∧
    (∀ (vec : List StackSlotData) (ss : Nat) (data : StackSlotData) (i : Nat),
      vec.length ≤ i → i < ss → (add_ss vec ss data)[i]? = some ss_default) ∧
    (∀ (α : Type) (vec : List α) (k : Nat) (dflt data : α),
      k < (add_entity vec k dflt data).length ∧
      (add_entity vec k dflt data)[k]? = some data) ∧
    (∀ (α : Type) (dflt : α) (defs : List (Nat × α)) (p : Nat × α),
      p ∈ defs → p.1 < (run_defs dflt defs).length) := by
  have hlen : ∀ (α : Type) (vec : List α) (k : Nat) (dflt data : α),
      (add_entity vec k dflt data).length = max vec.length (k + 1) :=
    fun α vec k dflt data => add_entity_length vec k dflt data
  refine ⟨hlen, ?_, ?_, ?_⟩
  · intro vec ss data i hge hlt
    unfold add_ss add_entity
    rw [List.getElem?_set_ne (by omega)]
    rw [List.getElem?_append_right hge]
    rw [List.getElem?_replicate]
    rw [if_pos (by omega)]
  · intro α vec k dflt data
    constructor
    · rw [hlen]; omega
    · unfold add_entity
      rw [List.getElem?_set_self (by simp [List.length_replicate]; omega)]
  · intro α dflt defs
    suffices h : ∀ (defs : List (Nat × α)) (vec : List α) (p : Nat × α),
        p ∈ defs →
        p.1 < ((defs.foldl (fun vec p => add_entity vec p.1 dflt p.2) vec).length) by
      intro p hp
      exact h defs [] p hp
    intro defs2
    induction defs2 with
    | nil => intro vec p hp; cases hp
    | cons q rest ih =>
      intro vec p hp
      simp only [List.foldl_cons]
      rcases List.mem_cons.mp hp with rfl | hp2
      · calc p.1 < (add_entity vec p.1 dflt p.2).length := by
              rw [add_entity_length]; omega
          _ ≤ _ := run_defs_length_ge dflt rest _
      · exact ih (add_entity vec q.1 dflt q.2) p hp2

theorem add_entity_spec_witness :
    (add_entity ([] : List Nat) 2 9 7).length = 3 ∧
      (add_ss [] 2 ⟨.explicitSlot, 4⟩)[1]? = some ss_default ∧
      (2 < (add_entity ([] : List Nat) 2 9 7).length ∧
        (add_entity ([] : List Nat) 2 9 7)[2]? = some 7) ∧
      2 < (run_defs (0 : Nat) [(2, 7)]).length := by
  refine ⟨?_, ?_, ?_, ?_⟩
  · exact add_entity_spec.1 Nat [] 2 9 7
  · exact add_entity_spec.2.1 [] 2 ⟨.explicitSlot, 4⟩ 1 (by decide) (by decide)
  · exact add_entity_spec.2.2.1 Nat [] 2 9 7
  · exact add_entity_spec.2.2.2 Nat 0 [(2, 7)] (2, 7) (by decide)
